import Mathlib

/-!
Verification of the deTilda rename-consistency and reference-rewriting engine.

Python strings are modelled as lists of Unicode code points (`Str := List Nat`);
file-system paths as lists of path segments (`PathA := List Str`), absolute from
the root, and the file system itself as the list of paths that exist.  All
definitions are executable translations of the corresponding functions in
`core/assets.py`, `core/refs.py`, `core/htaccess.py` and `core/checker.py`.
-/

/-- Strings as lists of Unicode code points (Python `str`). -/
abbrev Str := List Nat

/-- Turn a Lean string literal into the code-point model. -/
def pstr (s : String) : Str := s.data.map Char.toNat

/-- ASCII lower-casing of one code point (Python `str.lower` restricted to ASCII,
which is all the engine's inputs use). -/
def lowCP (c : Nat) : Nat := if 65 ≤ c ∧ c ≤ 90 then c + 32 else c

/-- Python `s.lower()`. -/
def lowS (s : Str) : Str := s.map lowCP

/-- Python `s.startswith(p)`. -/
def startsW (p s : Str) : Bool := p.isPrefixOf s

/-- Python `c in s` for a single character. -/
def hasC (d : Nat) (s : Str) : Bool := s.any (fun c => decide (c = d))

/-- Default whitespace set of Python `str.strip` (ASCII part). -/
def wsCP (c : Nat) : Bool := decide (c = 32 ∨ c = 9 ∨ c = 10 ∨ c = 13 ∨ c = 11 ∨ c = 12)

/-- Python `s.strip(chars)`: remove matching characters from both ends. -/
def stripBoth (p : Nat → Bool) (s : Str) : Str := (s.dropWhile p).rdropWhile p

/-- Python `s.lstrip("/")`. -/
def dropSlash (s : Str) : Str := s.dropWhile (fun c => decide (c = 47))

/-! ### `_normalize_alias` (core/htaccess.py, lines 53-58) -/

/-- Translation of `_normalize_alias`: strip whitespace, then strip the slashes
at both ends, then put exactly one slash back in front (47 is the slash). -/
def normalizeAlias (a : Str) : Str :=
  if stripBoth wsCP a = [] then [47]
  else if stripBoth (fun c => decide (c = 47)) (stripBoth wsCP a) = [] then [47]
  else 47 :: stripBoth (fun c => decide (c = 47)) (stripBoth wsCP a)

/-- Does the string contain two adjacent slashes anywhere? -/
def hasDblSlash : Str → Bool
  | a :: b :: r => (decide (a = 47) && decide (b = 47)) || hasDblSlash (b :: r)
  | _ => false

/-! ### `_split_url` (core/refs.py, lines 76-81) -/

/-- Translation of `_split_url`: split at the first `?` (63) when present,
else at the first `#` (35), else no suffix. -/
def splitUrl (u : Str) : Str × Str :=
  if hasC 63 u then (u.takeWhile (fun c => decide (c ≠ 63)), u.dropWhile (fun c => decide (c ≠ 63)))
  else if hasC 35 u then (u.takeWhile (fun c => decide (c ≠ 35)), u.dropWhile (fun c => decide (c ≠ 35)))
  else (u, [])

/-! ### Generic list helper lemmas -/

theorem takeWhile_append_all {p : Nat → Bool} {l1 l2 : List Nat} (h : ∀ x ∈ l1, p x) :
    (l1 ++ l2).takeWhile p = l1 ++ l2.takeWhile p := by
  induction l1 with
  | nil => rfl
  | cons a t ih =>
    simp only [List.cons_append, List.takeWhile_cons, h a (by simp)]
    simp [ih (fun x hx => h x (by simp [hx]))]

theorem takeWhile_all {p : Nat → Bool} {l : List Nat} (h : ∀ x ∈ l, p x) :
    l.takeWhile p = l := by
  induction l with
  | nil => rfl
  | cons a t ih =>
    simp [List.takeWhile_cons, h a (by simp), ih (fun x hx => h x (by simp [hx]))]

theorem takeWhile_append_stop {p : Nat → Bool} (l1 l2 : List Nat) :
    (l1 ++ l2).takeWhile p =
      if l1.all p then l1 ++ l2.takeWhile p else l1.takeWhile p := by
  by_cases h : l1.all p
  · simp only [h, if_true]
    exact takeWhile_append_all (by simpa [List.all_eq_true] using h)
  · simp only [h, if_false]
    induction l1 with
    | nil => simp [List.all_nil] at h
    | cons a t ih =>
      by_cases ha : p a
      · have ht : ¬ t.all p = true := by
          intro hc; exact h (by simp [List.all_cons, ha, hc])
        simp [List.takeWhile_cons, ha, ih ht]
      · simp [List.takeWhile_cons, ha]

theorem mem_takeWhile_p {p : Nat → Bool} {l : List Nat} {x : Nat}
    (h : x ∈ l.takeWhile p) : p x = true := by
  induction l with
  | nil => simp [List.takeWhile_nil] at h
  | cons a t ih =>
    by_cases ha : p a
    · rw [List.takeWhile_cons, if_pos ha] at h
      rcases List.mem_cons.mp h with rfl | hm
      · exact ha
      · exact ih hm
    · rw [List.takeWhile_cons, if_neg ha] at h
      simp at h

theorem head?_dropWhile_false {p : Nat → Bool} {l : List Nat} {c : Nat}
    (h : (l.dropWhile p).head? = some c) : p c = false := by
  induction l with
  | nil => simp [List.dropWhile_nil] at h
  | cons a t ih =>
    by_cases ha : p a
    · rw [List.dropWhile_cons, if_pos ha] at h
      exact ih h
    · rw [List.dropWhile_cons, if_neg ha] at h
      rw [List.head?_cons, Option.some_inj] at h
      subst h
      simpa using ha

theorem hasC_iff {d : Nat} {s : Str} : hasC d s = true ↔ d ∈ s := by
  simp [hasC, List.any_eq_true]

/-! ### Claim C9 -/

theorem normalizeAlias_startsW_iff (a : Str) :
    ∃ u, normalizeAlias a = 47 :: u ∧ u.head? ≠ some 47 := by
  unfold normalizeAlias
  by_cases h1 : stripBoth wsCP a = []
  · exact ⟨[], by simp [h1], by simp⟩
  · simp only [h1, if_false]
    cases hu : stripBoth (fun c => decide (c = 47)) (stripBoth wsCP a) with
    | nil => exact ⟨[], by simp, by simp⟩
    | cons x r =>
      refine ⟨x :: r, by simp, ?_⟩
      intro hc
      have hx : x = 47 := by simpa using hc
      have hpre : stripBoth (fun c => decide (c = 47)) (stripBoth wsCP a) <+:
          ((stripBoth wsCP a).dropWhile (fun c => decide (c = 47))) :=
        List.rdropWhile_prefix _ _
      rcases hpre with ⟨tail, htail⟩
      rw [hu] at htail
      have hh : ((stripBoth wsCP a).dropWhile (fun c => decide (c = 47))).head? = some x := by
        rw [← htail]; simp
      have := head?_dropWhile_false hh
      simp [hx] at this

/-- C9: the claim that `_normalize_alias` removes repeated slashes everywhere is
false: interior repeated slashes survive, as on input `a//b`. -/
theorem normalizeAlias_keeps_inner_dbl_slash :
    normalizeAlias (pstr ("a//b")) = pstr ("/a//b") ∧
      hasDblSlash (normalizeAlias (pstr ("a//b"))) = true := by
  constructor <;> decide

/-- C9 (amended): the result of `_normalize_alias` always starts with exactly one
leading slash (it starts with a slash and never with two); repeated slashes are
only removed at the two ends of the alias, not in its interior. -/
theorem normalizeAlias_single_leading_slash (a : Str) :
    startsW (pstr ("/")) (normalizeAlias a) = true ∧
      startsW (pstr ("//")) (normalizeAlias a) = false := by
  obtain ⟨u, hu, hh⟩ := normalizeAlias_startsW_iff a
  rw [hu]
  constructor
  · simp [startsW, pstr, List.isPrefixOf]
  · cases u with
    | nil => simp [startsW, pstr, List.isPrefixOf]
    | cons x r =>
      have hx : ¬ x = 47 := by
        intro h; exact hh (by simp [h])
      have hx2 : ¬ 47 = x := fun h => hx h.symm
      simp [startsW, pstr, List.isPrefixOf, hx, hx2]

/-! ### Claim C10 -/

/-- C10: `_split_url` splits a URL into base and suffix with `base ++ suffix = url`;
the split is at the first `?` when the URL has one, else at the first `#`, else
the suffix is empty. -/
theorem splitUrl_round_trip (u : Str) :
    (splitUrl u).1 ++ (splitUrl u).2 = u ∧
      (hasC 63 u = true →
        hasC 63 (splitUrl u).1 = false ∧ (splitUrl u).2.head? = some 63) ∧
      (hasC 63 u = false → hasC 35 u = true →
        hasC 35 (splitUrl u).1 = false ∧ (splitUrl u).2.head? = some 35) ∧
      (hasC 63 u = false → hasC 35 u = false → (splitUrl u).2 = []) := by
  refine ⟨?_, ?_, ?_, ?_⟩
  · unfold splitUrl
    by_cases h1 : hasC 63 u
    · simp [h1, List.takeWhile_append_dropWhile]
    · by_cases h2 : hasC 35 u <;> simp [h1, h2, List.takeWhile_append_dropWhile]
  · intro h1
    constructor
    · rw [Bool.eq_false_iff]
      intro hc
      rw [hasC_iff] at hc
      unfold splitUrl at hc
      simp only [h1, if_true] at hc
      have := mem_takeWhile_p hc
      simp at this
    · have hmem : 63 ∈ u := hasC_iff.mp h1
      unfold splitUrl
      simp only [h1, if_true]
      induction u with
      | nil => simp at hmem
      | cons a t ih =>
        by_cases ha : a = 63
        · simp [List.dropWhile_cons, ha]
        · have : 63 ∈ t := by
            rcases List.mem_cons.mp hmem with h | h
            · exact absurd h.symm ha
            · exact h
          have ht : hasC 63 t = true := hasC_iff.mpr this
          simpa [List.dropWhile_cons, ha] using ih ht this
  · intro h1 h2
    constructor
    · rw [Bool.eq_false_iff]
      intro hc
      rw [hasC_iff] at hc
      unfold splitUrl at hc
      simp only [h1, h2, if_true, if_false] at hc
      have := mem_takeWhile_p hc
      simp at this
    · have hmem : 35 ∈ u := hasC_iff.mp h2
      unfold splitUrl
      simp only [h1, h2, if_true, if_false]
      induction u with
      | nil => simp at hmem
      | cons a t ih =>
        by_cases ha : a = 35
        · simp [List.dropWhile_cons, ha]
        · have hm : 35 ∈ t := by
            rcases List.mem_cons.mp hmem with h | h
            · exact absurd h.symm ha
            · exact h
          have h1t : hasC 63 t = false := by
            rw [Bool.eq_false_iff]
            intro hc
            have : 63 ∈ a :: t := List.mem_cons_of_mem a (hasC_iff.mp hc)
            exact absurd (hasC_iff.mpr this) (by simp [h1])
          have h2t : hasC 35 t = true := hasC_iff.mpr hm
          simpa [List.dropWhile_cons, ha] using ih h1t h2t hm
  · intro h1 h2
    unfold splitUrl
    simp [h1, h2]

/-- C10 witness at the concrete URL `img.PNG?t=123#frag`. -/
theorem splitUrl_round_trip_wit :
    (splitUrl (pstr ("img.PNG?t=123#frag"))).1 ++ (splitUrl (pstr ("img.PNG?t=123#frag"))).2 =
        pstr ("img.PNG?t=123#frag") ∧
      (hasC 63 (pstr ("img.PNG?t=123#frag")) = true →
        hasC 63 (splitUrl (pstr ("img.PNG?t=123#frag"))).1 = false ∧
          (splitUrl (pstr ("img.PNG?t=123#frag"))).2.head? = some 63) :=
  ⟨(splitUrl_round_trip (pstr ("img.PNG?t=123#frag"))).1,
   (splitUrl_round_trip (pstr ("img.PNG?t=123#frag"))).2.1⟩

/-! ### The rename map built by `_apply_case_normalization` (core/assets.py, lines 348-395)

A case-normalization event renames one file, whose name is not fully
lower-case, to the lower-cased name in the same directory.  `recordRename`
performs exactly the dictionary updates of lines 373-390: insert the
relative-path pair and the bare-name pair, rewrite the values of existing
entries that equal the old path or old name, and mirror the backslash form
when the relative path contains a slash. -/

/-- A file in the project tree: directory segments and file name. -/
structure FileE where
  dirs : List Str
  name : Str
deriving DecidableEq

/-- Path separators: `/` (47) and `\` (92). -/
def sepB (c : Nat) : Bool := decide (c = 47 ∨ c = 92)

/-- True when the string contains no path separator. -/
def noSep (s : Str) : Bool := s.all (fun c => !(sepB c))

/-- The part of a path string after its last separator. -/
def fileSeg (s : Str) : Str := (s.reverse.takeWhile (fun c => !(sepB c))).reverse

/-- Does the string contain an ASCII upper-case letter? -/
def hasUpper (s : Str) : Bool := s.any (fun c => decide (65 ≤ c ∧ c ≤ 90))

/-- Join path segments with the given separator (`"/".join`-style). -/
def renderP (sep : Nat) : List Str → Str
  | [] => []
  | [s] => s
  | s :: t => s ++ sep :: renderP sep t

/-- Python `s.replace("/", "\\")`. -/
def replSlash (s : Str) : Str := s.map (fun c => if c = 47 then 92 else c)

/-- The rename map: an insertion-ordered dictionary from strings to strings. -/
abbrev RenMap := List (Str × Str)

/-- Dictionary lookup (first matching key; keys are unique by construction). -/
def getA : RenMap → Str → Option Str
  | [], _ => none
  | kv :: r, x => if x = kv.1 then some kv.2 else getA r x

/-- Python dictionary assignment `m[k] = v`: update in place or append. -/
def setA : RenMap → Str → Str → RenMap
  | [], k, v => [(k, v)]
  | kv :: r, k, v => if kv.1 = k then (k, v) :: r else kv :: setA r k v

/-- Resolving a path through the map: the mapped value, or the path itself. -/
def resolve (m : RenMap) (x : Str) : Str := (getA m x).getD x

/-- The value-rewriting loop of lines 375-379: any value equal to the old
relative path becomes the new one, else any value equal to the old bare name
becomes the new bare name. -/
def fixVals2 (m : RenMap) (a1 b1 a2 b2 : Str) : RenMap :=
  m.map (fun kv => if kv.2 = a1 then (kv.1, b1) else if kv.2 = a2 then (kv.1, b2) else kv)

/-- The value-rewriting loop of lines 388-390 for the backslash mirror. -/
def fixVals (m : RenMap) (a b : Str) : RenMap :=
  m.map (fun kv => if kv.2 = a then (kv.1, b) else kv)

/-- The old project-relative path of an event (forward slashes). -/
def oldRel (e : FileE) : Str := renderP 47 (e.dirs ++ [e.name])

/-- The new project-relative path of an event (file name lower-cased). -/
def newRel (e : FileE) : Str := renderP 47 (e.dirs ++ [lowS e.name])

/-- All dictionary updates that `_apply_case_normalization` performs for one
renamed file (core/assets.py lines 373-390). -/
def recordRename (m : RenMap) (e : FileE) : RenMap :=
  let m1 := setA m (oldRel e) (newRel e)
  let m2 := setA m1 e.name (lowS e.name)
  let m3 := fixVals2 m2 (oldRel e) (newRel e) e.name (lowS e.name)
  if hasC 47 (oldRel e) then
    fixVals (setA m3 (replSlash (oldRel e)) (replSlash (newRel e)))
      (replSlash (oldRel e)) (replSlash (newRel e))
  else m3

/-- A well-formed event: the file name contains no separator and is not already
fully lower-case (the guard of line 358). -/
def wfEv (e : FileE) : Bool := noSep e.name && decide (¬ e.name = lowS e.name)

/-- The rename map produced by a sequence of case-normalization renames. -/
def buildMap (es : List FileE) : RenMap := es.foldl recordRename []

/-! Facts about lower-casing and file segments. -/

theorem lowS_hasUpper_false (s : Str) : hasUpper (lowS s) = false := by
  rw [Bool.eq_false_iff]
  intro h
  rw [hasUpper, List.any_eq_true] at h
  rcases h with ⟨c, hc, hprop⟩
  rw [lowS, List.mem_map] at hc
  rcases hc with ⟨c0, _, rfl⟩
  rw [lowCP] at hprop
  by_cases h0 : 65 ≤ c0 ∧ c0 ≤ 90
  · rw [if_pos h0] at hprop
    simp at hprop
    omega
  · rw [if_neg h0] at hprop
    simp at hprop
    exact h0 hprop

theorem noSep_lowS {s : Str} (h : noSep s = true) : noSep (lowS s) = true := by
  rw [noSep, List.all_eq_true] at h ⊢
  intro c hc
  rw [lowS, List.mem_map] at hc
  rcases hc with ⟨c0, hc0, rfl⟩
  have := h c0 hc0
  simp [sepB] at this ⊢
  rw [lowCP]
  by_cases h0 : 65 ≤ c0 ∧ c0 ≤ 90
  · rw [if_pos h0]; omega
  · rw [if_neg h0]; exact this

theorem ne_lowS_hasUpper {s : Str} (h : ¬ s = lowS s) : hasUpper s = true := by
  by_contra hc
  apply h
  rw [Bool.not_eq_true] at hc
  rw [hasUpper] at hc
  have hall : ∀ c ∈ s, ¬ (65 ≤ c ∧ c ≤ 90) := by
    intro c hcm hprop
    simp at hc
    obtain ⟨hp1, hp2⟩ := hprop
    have h2 := hc c hcm
    omega
  rw [lowS]
  have : ∀ c ∈ s, lowCP c = c := by
    intro c hcm
    rw [lowCP, if_neg (hall c hcm)]
  conv_lhs => rw [← List.map_id s]
  exact (List.map_congr_left (fun c hcm => ((this c hcm)).symm))

theorem fileSeg_noSep {s : Str} (h : noSep s = true) : fileSeg s = s := by
  rw [fileSeg]
  rw [noSep, List.all_eq_true] at h
  rw [takeWhile_all (by intro x hx; exact h x (List.mem_reverse.mp hx))]
  exact List.reverse_reverse s

theorem fileSeg_append_sep {c : Nat} (hc : sepB c = true) (a b : Str) :
    fileSeg (a ++ c :: b) = fileSeg b := by
  rw [fileSeg, fileSeg]
  rw [show (a ++ c :: b).reverse = b.reverse ++ c :: a.reverse by simp]
  rw [takeWhile_append_stop]
  by_cases hall : b.reverse.all (fun x => !(sepB x))
  · rw [if_pos hall]
    rw [List.takeWhile_cons, if_neg (by simp [hc])]
    rw [takeWhile_all (by simpa [List.all_eq_true] using hall)]
    simp
  · rw [if_neg hall]

theorem renderP_cons_ne (sep : Nat) (s : Str) {t : List Str} (h : t ≠ []) :
    renderP sep (s :: t) = s ++ sep :: renderP sep t := by
  cases t with
  | nil => exact absurd rfl h
  | cons x xs => rfl

theorem fileSeg_renderP {sep : Nat} (hsep : sepB sep = true) (ds : List Str) {n : Str}
    (hn : noSep n = true) : fileSeg (renderP sep (ds ++ [n])) = n := by
  induction ds with
  | nil => simpa [renderP] using fileSeg_noSep hn
  | cons d t ih =>
    rw [List.cons_append, renderP_cons_ne sep d (by simp)]
    rw [fileSeg_append_sep hsep]
    exact ih

theorem replSlash_noSep {s : Str} (h : noSep s = true) : replSlash s = s := by
  rw [noSep, List.all_eq_true] at h
  rw [replSlash]
  conv_rhs => rw [← List.map_id s]
  refine List.map_congr_left (fun c hcm => ?_)
  have := h c hcm
  simp [sepB] at this
  rw [if_neg this.1]
  rfl

theorem fileSeg_replSlash_renderP (ds : List Str) {n : Str} (hn : noSep n = true) :
    fileSeg (replSlash (renderP 47 (ds ++ [n]))) = n := by
  induction ds with
  | nil =>
    rw [show ([] : List Str) ++ [n] = [n] from rfl]
    rw [show renderP 47 [n] = n from rfl, replSlash_noSep hn]
    exact fileSeg_noSep hn
  | cons d t ih =>
    rw [List.cons_append, renderP_cons_ne 47 d (by simp)]
    rw [replSlash, List.map_append, List.map_cons, if_pos rfl]
    rw [fileSeg_append_sep (by simp [sepB]) _ _]
    exact ih

/-! The closure invariant: every key of the map has an upper-case letter in its
file segment, every value has none. -/

def closedInv (m : RenMap) : Prop :=
  ∀ kv ∈ m, hasUpper (fileSeg kv.1) = true ∧ hasUpper (fileSeg kv.2) = false

theorem getA_mem {m : RenMap} {k v : Str} (h : getA m k = some v) : (k, v) ∈ m := by
  induction m with
  | nil => simp [getA] at h
  | cons kv r ih =>
    rw [getA] at h
    by_cases hk : k = kv.1
    · rw [if_pos hk] at h
      rw [Option.some_inj] at h
      subst h; subst hk
      exact List.mem_cons_self _ _
    · rw [if_neg hk] at h
      exact List.mem_cons_of_mem _ (ih h)

theorem setA_inv {m : RenMap} {k v : Str} (hm : closedInv m)
    (hk : hasUpper (fileSeg k) = true) (hv : hasUpper (fileSeg v) = false) :
    closedInv (setA m k v) := by
  induction m with
  | nil => intro kv hkv; simp [setA] at hkv; subst hkv; exact ⟨hk, hv⟩
  | cons kv0 r ih =>
    intro kv hkv
    rw [setA] at hkv
    by_cases h0 : kv0.1 = k
    · rw [if_pos h0] at hkv
      rcases List.mem_cons.mp hkv with rfl | hmem
      · exact ⟨hk, hv⟩
      · exact hm kv (List.mem_cons_of_mem _ hmem)
    · rw [if_neg h0] at hkv
      rcases List.mem_cons.mp hkv with rfl | hmem
      · exact hm kv (List.mem_cons_self _ _)
      · exact ih (fun p hp => hm p (List.mem_cons_of_mem _ hp)) kv hmem

theorem fixVals2_inv {m : RenMap} {a1 b1 a2 b2 : Str} (hm : closedInv m)
    (h1 : hasUpper (fileSeg b1) = false) (h2 : hasUpper (fileSeg b2) = false) :
    closedInv (fixVals2 m a1 b1 a2 b2) := by
  intro kv hkv
  rw [fixVals2, List.mem_map] at hkv
  rcases hkv with ⟨kv0, hkv0, heq⟩
  rcases hm kv0 hkv0 with ⟨hk0, hv0⟩
  by_cases c1 : kv0.2 = a1
  · rw [if_pos c1] at heq
    subst heq
    exact ⟨hk0, h1⟩
  · rw [if_neg c1] at heq
    by_cases c2 : kv0.2 = a2
    · rw [if_pos c2] at heq
      subst heq
      exact ⟨hk0, h2⟩
    · rw [if_neg c2] at heq
      subst heq
      exact ⟨hk0, hv0⟩

theorem fixVals_inv {m : RenMap} {a b : Str} (hm : closedInv m)
    (h1 : hasUpper (fileSeg b) = false) : closedInv (fixVals m a b) := by
  intro kv hkv
  rw [fixVals, List.mem_map] at hkv
  rcases hkv with ⟨kv0, hkv0, heq⟩
  rcases hm kv0 hkv0 with ⟨hk0, hv0⟩
  by_cases c1 : kv0.2 = a
  · rw [if_pos c1] at heq
    subst heq
    exact ⟨hk0, h1⟩
  · rw [if_neg c1] at heq
    subst heq
    exact ⟨hk0, hv0⟩

theorem recordRename_inv {m : RenMap} {e : FileE} (hm : closedInv m)
    (he : wfEv e = true) : closedInv (recordRename m e) := by
  rw [wfEv, Bool.and_eq_true] at he
  have hnos : noSep e.name = true := he.1
  have hne : ¬ e.name = lowS e.name := by simpa using he.2
  have hsep47 : sepB 47 = true := by simp [sepB]
  have hOld : hasUpper (fileSeg (oldRel e)) = true := by
    rw [oldRel, fileSeg_renderP hsep47 e.dirs hnos]
    exact ne_lowS_hasUpper hne
  have hNew : hasUpper (fileSeg (newRel e)) = false := by
    rw [newRel, fileSeg_renderP hsep47 e.dirs (noSep_lowS hnos)]
    exact lowS_hasUpper_false e.name
  have hOldN : hasUpper (fileSeg e.name) = true := by
    rw [fileSeg_noSep hnos]; exact ne_lowS_hasUpper hne
  have hNewN : hasUpper (fileSeg (lowS e.name)) = false := by
    rw [fileSeg_noSep (noSep_lowS hnos)]; exact lowS_hasUpper_false e.name
  have hOldW : hasUpper (fileSeg (replSlash (oldRel e))) = true := by
    rw [oldRel, fileSeg_replSlash_renderP e.dirs hnos]
    exact ne_lowS_hasUpper hne
  have hNewW : hasUpper (fileSeg (replSlash (newRel e))) = false := by
    rw [newRel, fileSeg_replSlash_renderP e.dirs (noSep_lowS hnos)]
    exact lowS_hasUpper_false e.name
  rw [recordRename]
  have h3 : closedInv (fixVals2 (setA (setA m (oldRel e) (newRel e)) e.name (lowS e.name))
      (oldRel e) (newRel e) e.name (lowS e.name)) :=
    fixVals2_inv (setA_inv (setA_inv hm hOld hNew) hOldN hNewN) hNew hNewN
  by_cases hc : hasC 47 (oldRel e)
  · rw [if_pos hc]
    exact fixVals_inv (setA_inv h3 hOldW hNewW) hNewW
  · rw [if_neg hc]
    exact h3

theorem buildMap_inv {es : List FileE} (h : ∀ e ∈ es, wfEv e = true) :
    closedInv (buildMap es) := by
  rw [buildMap]
  have main : ∀ (l : List FileE) (m : RenMap), closedInv m → (∀ e ∈ l, wfEv e = true) →
      closedInv (l.foldl recordRename m) := by
    intro l
    induction l with
    | nil => intro m hm _; exact hm
    | cons e t ih =>
      intro m hm hl
      rw [List.foldl_cons]
      exact ih _ (recordRename_inv hm (hl e (List.mem_cons_self _ _)))
        (fun x hx => hl x (List.mem_cons_of_mem _ hx))
  exact main es [] (by intro kv hkv; simp at hkv) h

theorem closedInv_resolve_fixed {m : RenMap} (hm : closedInv m) (x : Str) :
    resolve m (resolve m x) = resolve m x := by
  cases h : getA m x with
  | none =>
    have hx : resolve m x = x := by rw [resolve, h, Option.getD_none]
    rw [hx]
    exact hx
  | some v =>
    have hx : resolve m x = v := by rw [resolve, h, Option.getD_some]
    rw [hx]
    cases hv : getA m v with
    | none => rw [resolve, hv, Option.getD_none]
    | some w =>
      exfalso
      have h1 := (hm (x, v) (getA_mem h)).2
      have h2 := (hm (v, w) (getA_mem hv)).1
      rw [h1] at h2
      exact Bool.false_ne_true h2

/-- C1: for any sequence of case-normalization renames, the finished rename map
is closed — resolving any string twice equals resolving it once, because no
mapped value is itself a key bound to a different value. -/
theorem cn_rename_map_closed (es : List FileE) (h : ∀ e ∈ es, wfEv e = true) (x : Str) :
    resolve (buildMap es) (resolve (buildMap es) x) = resolve (buildMap es) x :=
  closedInv_resolve_fixed (buildMap_inv h) x

/-- C1 witness: two concrete renames, resolved at the first file's old path. -/
theorem cn_rename_map_closed_wit :
    resolve (buildMap [⟨[pstr ("pages")], pstr ("Job.HTML")⟩, ⟨[], pstr ("B.HTML")⟩])
        (resolve (buildMap [⟨[pstr ("pages")], pstr ("Job.HTML")⟩, ⟨[], pstr ("B.HTML")⟩])
          (pstr ("pages/Job.HTML"))) =
      resolve (buildMap [⟨[pstr ("pages")], pstr ("Job.HTML")⟩, ⟨[], pstr ("B.HTML")⟩])
        (pstr ("pages/Job.HTML")) :=
  cn_rename_map_closed _ (by decide) _

/-! ### Absolute paths and the file system

An absolute path is the list of its segments below the filesystem root; the
file system is the list of paths that exist.  `normSegs` is the lexical part of
`Path.resolve()` (no symbolic links): empty and `.` segments vanish, `..` pops,
and popping never goes above the root. -/

/-- Absolute filesystem path as segments. -/
abbrev PathA := List Str

/-- Split a string on a delimiter, keeping empty pieces. -/
def splitOnC (d : Nat) : Str → List Str
  | [] => [[]]
  | c :: r =>
    match splitOnC d r with
    | [] => [[]]
    | s :: rest => if c = d then [] :: s :: rest else (c :: s) :: rest

/-- Lexical path normalization: drop empty and `.` segments, let `..` pop. -/
def normSegs (segs : List Str) : PathA :=
  segs.foldl
    (fun acc s =>
      if s = [] ∨ s = [46] then acc
      else if s = [46, 46] then acc.dropLast
      else acc ++ [s]) []

/-- Does this path exist on the modelled file system? -/
def pathExists (fsys : List PathA) (p : PathA) : Bool := fsys.any (fun q => decide (q = p))

/-- Python `s.split(d, 1)[0]`. -/
def cutAt (d : Nat) (s : Str) : Str := s.takeWhile (fun c => decide (c ≠ d))

/-! ### `_resolve_target_path` and `_store_route` (core/htaccess.py, lines 61-97) -/

/-- Is the target an absolute URL (`http://`, `https://` or `//`)? -/
def isAbsUrl (t : Str) : Bool :=
  startsW (pstr ("http://")) t || startsW (pstr ("https://")) t || startsW (pstr ("//")) t

/-- Translation of `_resolve_target_path`: reject empty targets, targets with a
`$` marker (36), absolute URLs, and every candidate whose resolved absolute
path is neither the project root nor one of its descendants. -/
def resolveTargetPath (target : Str) (rootP : PathA) : Option PathA :=
  let t := stripBoth wsCP target
  if t = [] then none
  else if hasC 36 t then none
  else if isAbsUrl t then none
  else
    let clean := stripBoth wsCP (cutAt 35 (cutAt 63 t))
    if clean = [] then none
    else
      let raw := if startsW (pstr ("/")) clean then dropSlash clean else clean
      let cand := normSegs (rootP ++ splitOnC 47 raw)
      if rootP.isPrefixOf cand then some cand else none

/-- The per-alias record stored by `_store_route` (`RouteInfo`; `found` models
the `exists` field). -/
structure RouteInfo where
  target : Str
  found : Bool
  path : Option PathA
deriving DecidableEq

/-- The `RouteInfo` that `_store_route` computes for one target string. -/
def storeRouteInfo (fsys : List PathA) (target : Str) (rootP : PathA) : RouteInfo :=
  match resolveTargetPath (stripBoth wsCP target) rootP with
  | none => ⟨stripBoth wsCP target, false, none⟩
  | some c => ⟨stripBoth wsCP target, pathExists fsys c, some c⟩

/-- The `routes` dictionary update of `_store_route`. -/
def storeRouteMap (routes : RenMap) (als target : Str) : RenMap :=
  setA routes (normalizeAlias als) (stripBoth wsCP target)

/-- Descendant check on the resolver result. -/
def descOk (rootP : PathA) : Option PathA → Bool
  | none => true
  | some c => rootP.isPrefixOf c

theorem dropWhile_stripBoth {p : Nat → Bool} (s : Str) :
    (stripBoth p s).dropWhile p = stripBoth p s := by
  cases hu : stripBoth p s with
  | nil => simp
  | cons x r =>
    have hpre : stripBoth p s <+: s.dropWhile p := List.rdropWhile_prefix p _
    rw [hu] at hpre
    rcases hpre with ⟨tail, htail⟩
    have hh : (s.dropWhile p).head? = some x := by rw [← htail]; simp
    have hx := head?_dropWhile_false hh
    rw [List.dropWhile_cons, if_neg (by simp [hx])]

theorem stripBoth_idem {p : Nat → Bool} (s : Str) :
    stripBoth p (stripBoth p s) = stripBoth p s := by
  rw [show stripBoth p (stripBoth p s) =
      ((stripBoth p s).dropWhile p).rdropWhile p from rfl]
  rw [dropWhile_stripBoth]
  rw [show stripBoth p s = (s.dropWhile p).rdropWhile p from rfl]
  exact List.rdropWhile_idempotent _ _

theorem resolveTargetPath_strip (target : Str) (rootP : PathA) :
    resolveTargetPath (stripBoth wsCP target) rootP = resolveTargetPath target rootP := by
  unfold resolveTargetPath
  rw [stripBoth_idem]

/-! ### Claim C3 -/

/-- C3: `_resolve_target_path` returns a path only when it is the project root
or a descendant of it; a target containing `$`, or an absolute URL, resolves to
nothing; and whenever the resolver returns nothing, the stored `RouteInfo` has
`exists = False` and `path = None`. -/
theorem route_target_traversal_guard (fsys : List PathA) (rootP : PathA) (target : Str) :
    descOk rootP (resolveTargetPath target rootP) = true ∧
      (hasC 36 (stripBoth wsCP target) = true ∨ isAbsUrl (stripBoth wsCP target) = true →
        resolveTargetPath target rootP = none) ∧
      (resolveTargetPath target rootP = none →
        (storeRouteInfo fsys target rootP).found = false ∧
          (storeRouteInfo fsys target rootP).path = none) := by
  refine ⟨?_, ?_, ?_⟩
  · unfold resolveTargetPath
    by_cases h1 : stripBoth wsCP target = []
    · simp [h1, descOk]
    · rw [if_neg h1]
      by_cases h2 : hasC 36 (stripBoth wsCP target)
      · simp [h2, descOk]
      · rw [if_neg (by simp [h2])]
        by_cases h3 : isAbsUrl (stripBoth wsCP target)
        · simp [h3, descOk]
        · rw [if_neg (by simp [h3])]
          by_cases h4 : stripBoth wsCP (cutAt 35 (cutAt 63 (stripBoth wsCP target))) = []
          · simp [h4, descOk]
          · rw [if_neg h4]
            by_cases h5 : rootP.isPrefixOf (normSegs (rootP ++ splitOnC 47
                (if startsW (pstr ("/"))
                    (stripBoth wsCP (cutAt 35 (cutAt 63 (stripBoth wsCP target)))) then
                  dropSlash (stripBoth wsCP (cutAt 35 (cutAt 63 (stripBoth wsCP target))))
                else stripBoth wsCP (cutAt 35 (cutAt 63 (stripBoth wsCP target))))))
            · rw [if_pos h5]
              simpa [descOk] using h5
            · rw [if_neg h5]
              simp [descOk]
  · intro h
    unfold resolveTargetPath
    by_cases h1 : stripBoth wsCP target = []
    · simp [h1]
    · rw [if_neg h1]
      rcases h with h2 | h3
      · rw [if_pos h2]
      · by_cases h2 : hasC 36 (stripBoth wsCP target)
        · rw [if_pos h2]
        · rw [if_neg (by simp [h2]), if_pos h3]
  · intro h
    rw [storeRouteInfo, resolveTargetPath_strip, h]
    exact ⟨rfl, rfl⟩

/-- C3 witness: a traversal target, an absolute URL and a `$` marker are all
rejected, while an in-tree target resolves. -/
theorem route_target_traversal_guard_wit :
    descOk [pstr ("home")] (resolveTargetPath (pstr ("../../etc/passwd")) [pstr ("home")]) = true ∧
      (hasC 36 (stripBoth wsCP (pstr ("../../etc/passwd"))) = true ∨
          isAbsUrl (stripBoth wsCP (pstr ("../../etc/passwd"))) = true →
        resolveTargetPath (pstr ("../../etc/passwd")) [pstr ("home")] = none) ∧
      (resolveTargetPath (pstr ("../../etc/passwd")) [pstr ("home")] = none →
        (storeRouteInfo [] (pstr ("../../etc/passwd")) [pstr ("home")]).found = false ∧
          (storeRouteInfo [] (pstr ("../../etc/passwd")) [pstr ("home")]).path = none) :=
  route_target_traversal_guard [] [pstr ("home")] (pstr ("../../etc/passwd"))

/-! ### `_update_links_in_html` (core/refs.py, lines 84-212)

`replFn` is the exact translation of the `repl` callback (lines 98-143): what
runs for one match of the attribute pattern, returning either `keep` (the
match is emitted unchanged) or a replacement string, together with the
`fixed` and `broken` deltas.  The pattern itself is stored at line 146 in a
raw string whose backslashes are doubled, so read as stored it requires a
literal backslash on each side of the `=`; that stored pattern is modelled
separately below (`litAttrMatch`). -/

/-- One match of the attribute pattern: attribute name, quote character (empty
when the optional quote group is absent) and the captured link. -/
structure Ref where
  attr : Str
  quote : Str
  link : Str

/-- Line 101: `quote = match.group("quote") or '"'` (34 is the double quote). -/
def qEff (r : Ref) : Str := if r.quote = [] then [34] else r.quote

/-- `_should_skip` (lines 15-16). -/
def shouldSkip (url : Str) (ignoreP : List Str) : Bool := ignoreP.any (fun p => startsW p url)

/-- `_replace_static_prefix` (lines 19-23): drop the leading slash before a
known static directory. -/
def staticTrim (url : Str) : Str :=
  if startsW (pstr ("/css/")) url then url.drop 1
  else if startsW (pstr ("/js/")) url then url.drop 1
  else if startsW (pstr ("/images/")) url then url.drop 1
  else if startsW (pstr ("/files/")) url then url.drop 1
  else url

/-- Rebuilt attribute text `attr={quote}{value}{suffix}{quote}` (61 is `=`). -/
def attrOut (r : Ref) (v suffix : Str) : Str :=
  r.attr ++ [61] ++ qEff r ++ v ++ suffix ++ qEff r

/-- The broken-reference marker appended by the `repl` callback. -/
def brokenMark : Str := pstr (" data-detilda-broken=\"1\"")

/-- The replacement emitted for a broken reference: `attr={quote}#{quote}`
followed by the marker (35 is `#`). -/
def brokenOut (r : Ref) : Str := r.attr ++ [61] ++ qEff r ++ [35] ++ qEff r ++ brokenMark

/-- Result of the `repl` callback for one match. -/
inductive ReplRes
  | keep
  | repl (s : Str)

/-- Translation of `repl` (lines 98-143): skip ignored and `../` references;
for root-relative references try the route table, then static-directory
stripping, then the rename map, then filesystem existence (marking broken);
for relative references try the rename map, then existence (marking broken),
except for scheme-style references. -/
def replFn (routes renMap : RenMap) (fsys : List PathA) (rootP : PathA)
    (ignoreP : List Str) (r : Ref) : ReplRes × Nat × Nat :=
  if shouldSkip r.link ignoreP || startsW (pstr ("../")) (splitUrl r.link).1 then
    (ReplRes.keep, 0, 0)
  else if startsW (pstr ("/")) (splitUrl r.link).1 then
    match getA routes (splitUrl r.link).1 with
    | some u =>
      if ¬ u = (splitUrl r.link).1 then
        (ReplRes.repl (attrOut r u (splitUrl r.link).2), 1, 0)
      else replRootRest renMap fsys rootP r
    | none => replRootRest renMap fsys rootP r
  else
    match getA renMap (splitUrl r.link).1 with
    | some v => (ReplRes.repl (attrOut r v (splitUrl r.link).2), 1, 0)
    | none =>
      if ¬ (splitUrl r.link).1 = [] ∧
          ¬ (startsW (pstr ("http://")) (splitUrl r.link).1 ∨
             startsW (pstr ("https://")) (splitUrl r.link).1 ∨
             startsW (pstr ("//")) (splitUrl r.link).1) then
        if pathExists fsys (normSegs (rootP ++ splitOnC 47 (splitUrl r.link).1)) then
          (ReplRes.keep, 0, 0)
        else (ReplRes.repl (brokenOut r), 0, 1)
      else (ReplRes.keep, 0, 0)
where
  replRootRest (renMap : RenMap) (fsys : List PathA) (rootP : PathA) (r : Ref) :
      ReplRes × Nat × Nat :=
    if ¬ staticTrim (splitUrl r.link).1 = (splitUrl r.link).1 then
      (ReplRes.repl (attrOut r (staticTrim (splitUrl r.link).1) (splitUrl r.link).2), 1, 0)
    else
      match getA renMap (dropSlash (splitUrl r.link).1) with
      | some v => (ReplRes.repl (attrOut r v (splitUrl r.link).2), 1, 0)
      | none =>
        if pathExists fsys (normSegs (rootP ++ splitOnC 47 (dropSlash (splitUrl r.link).1))) then
          (ReplRes.keep, 0, 0)
        else (ReplRes.repl (brokenOut r), 0, 1)

/-- Literal `re.subn`: replace every non-overlapping occurrence of `o` by `n`,
left to right, returning the new text and the number of replacements. -/
def subnFuel (o n : Str) : Nat → Str → Str × Nat
  | 0, s => (s, 0)
  | _ + 1, [] => ([], 0)
  | fuel + 1, c :: r =>
    if startsW o (c :: r) then
      let p := subnFuel o n fuel (r.drop (o.length - 1))
      (n ++ p.1, p.2 + 1)
    else
      let p := subnFuel o n fuel r
      (c :: p.1, p.2)

def subnLit (o n s : Str) : Str × Nat := subnFuel o n s.length s

/-- The ignore-prefix list the configuration supplies to the rewriter. -/
def stdIgnore : List Str :=
  [pstr ("http://"), pstr ("https://"), pstr ("//"), pstr ("mailto:"), pstr ("tel:"),
   pstr ("javascript:"), pstr ("data:"), pstr ("about:"), pstr ("#")]

/-! ### The attribute pattern as stored (core/refs.py, line 146)

The pattern is written in a raw string, so its doubled backslashes reach the
regex engine unescaped: between the attribute name and the `=` the engine
demands one literal backslash (92) and then a run of the letter s (115; the
IGNORECASE flag also admits 83), and the same again after the `=`.
`litAttrMatch` is the shape of one match of this stored pattern; every match
carries a literal backslash, so the stored pattern matches no ordinary HTML
reference. -/

/-- The attribute alternation of the pattern, case-insensitively. -/
def attrWord (a : Str) : Bool :=
  decide (lowS a = pstr ("href")) || decide (lowS a = pstr ("src")) ||
    decide (lowS a = pstr ("data-src")) || decide (lowS a = pstr ("data-href")) ||
    decide (lowS a = pstr ("action"))

/-- A run matched by `s*` under IGNORECASE. -/
def sRun (s : Str) : Bool := s.all (fun c => decide (c = 115 ∨ c = 83))

/-- The optional quote group: absent, a double quote or a single quote. -/
def quoteOpt (q : Str) : Bool := decide (q = [] ∨ q = [34] ∨ q = [39])

/-- The link group: one or more characters other than the quotes and `>`. -/
def linkRun (l : Str) : Bool :=
  decide (¬ l = []) && l.all (fun c => decide (¬ (c = 34 ∨ c = 39 ∨ c = 62)))

/-- One match of the stored pattern: attribute word, literal backslash, s-run,
equals sign (61), literal backslash, s-run, optional quote, link, same quote
(an absent quote group makes the backreference match the empty string). -/
def litAttrMatch (m : Str) : Prop :=
  ∃ a s1 s2 q l, attrWord a = true ∧ sRun s1 = true ∧ sRun s2 = true ∧
    quoteOpt q = true ∧ linkRun l = true ∧
    m = a ++ 92 :: (s1 ++ 61 :: 92 :: (s2 ++ q ++ l ++ q))

/-- A text split into the plain pieces between matches and the matches of the
stored pattern; `re.sub` emits the former unchanged and maps the callback
over the latter. -/
inductive LTok
  | plain (s : Str)
  | mat (m : Str)

/-- The text of one piece. -/
def renderLTok : LTok → Str
  | LTok.plain s => s
  | LTok.mat m => m

/-- The whole text. -/
def renderLToks (ts : List LTok) : Str :=
  (ts.map renderLTok).foldr (fun a b => a ++ b) []

/-- `pattern.sub(callback, text)` over the split text, with the callback's
output text and (fixed, broken) deltas per match given by `f`. -/
def litPass (f : Str → Str × Nat × Nat) : List LTok → Str × Nat × Nat
  | [] => ([], 0, 0)
  | LTok.plain s :: r =>
    (s ++ (litPass f r).1, (litPass f r).2.1, (litPass f r).2.2)
  | LTok.mat m :: r =>
    ((f m).1 ++ (litPass f r).1, (f m).2.1 + (litPass f r).2.1,
     (f m).2.2 + (litPass f r).2.2)

theorem hasC_append (d : Nat) (a b : Str) :
    hasC d (a ++ b) = (hasC d a || hasC d b) := by
  simp [hasC]

theorem litAttrMatch_hasBackslash {m : Str} (h : litAttrMatch m) : hasC 92 m = true := by
  rcases h with ⟨a, s1, s2, q, l, _, _, _, _, _, rfl⟩
  rw [hasC_append]
  have h92 : hasC 92 (92 :: (s1 ++ 61 :: 92 :: (s2 ++ q ++ l ++ q))) = true := by
    rw [hasC_iff]
    exact List.mem_cons_self _ _
  rw [h92, Bool.or_true]

theorem litPass_no_backslash (f : Str → Str × Nat × Nat) (ts : List LTok)
    (hm : ∀ m, LTok.mat m ∈ ts → litAttrMatch m)
    (hb : hasC 92 (renderLToks ts) = false) :
    litPass f ts = (renderLToks ts, 0, 0) := by
  induction ts with
  | nil => rfl
  | cons t r ih =>
    have hrend : renderLToks (t :: r) = renderLTok t ++ renderLToks r := rfl
    rw [hrend, hasC_append, Bool.or_eq_false_iff] at hb
    cases t with
    | mat m =>
      exfalso
      have hmm := litAttrMatch_hasBackslash (hm m (List.mem_cons_self _ _))
      have hf : hasC 92 m = false := hb.1
      rw [hmm] at hf
      simp at hf
    | plain s =>
      have ihr := ih (fun m hm2 => hm m (List.mem_cons_of_mem _ hm2)) hb.2
      have hstep : litPass f (LTok.plain s :: r) =
          (s ++ (litPass f r).1, (litPass f r).2.1, (litPass f r).2.2) := rfl
      rw [hstep, ihr, hrend]
      rfl

/-! ### Claim C6 -/

/-- C6: the broken-detection claim fails on the stored code.  The failing
reference text `<a href="/nope.html">` contains no backslash, while every
match of the stored attribute pattern does, so one pass of
`_update_links_in_html` matches nothing at this input: however the text is
split into plain pieces and stored-pattern matches, and whatever the `repl`
callback would do per match, the substitution returns the text unchanged with
the fixed and broken counters both 0 — the reference is not flagged and the
broken counter is not incremented. -/
theorem lit_attr_scan_flags_nothing :
    hasC 92 (pstr ("<a href=\"/nope.html\">")) = false ∧
    ∀ (f : Str → Str × Nat × Nat) (ts : List LTok),
      (∀ m, LTok.mat m ∈ ts → litAttrMatch m) →
      renderLToks ts = pstr ("<a href=\"/nope.html\">") →
      litPass f ts = (pstr ("<a href=\"/nope.html\">"), 0, 0) := by
  refine ⟨by decide, ?_⟩
  intro f ts hm hr
  rw [← hr]
  refine litPass_no_backslash f ts hm ?_
  rw [hr]
  decide


/-! ### Claim C5 -/

/-- C5: a reference with a query/fragment suffix is rewritten on its base path
only — here through the rename map for a relative reference — and the suffix is
reattached verbatim after the new base. -/
theorem suffix_reattached_verbatim
    (routes renMap : RenMap) (fsys : List PathA) (rootP : PathA) (ignoreP : List Str)
    (r : Ref) (v : Str)
    (h1 : shouldSkip r.link ignoreP = false)
    (h2 : startsW (pstr ("../")) (splitUrl r.link).1 = false)
    (h3 : startsW (pstr ("/")) (splitUrl r.link).1 = false)
    (h4 : getA renMap (splitUrl r.link).1 = some v) :
    replFn routes renMap fsys rootP ignoreP r =
      (ReplRes.repl (r.attr ++ [61] ++ qEff r ++ v ++ (splitUrl r.link).2 ++ qEff r), 1, 0) := by
  unfold replFn
  rw [h1, h2, h3, h4]
  simp [attrOut]

/-- C5 witness: after the rename `img.PNG` to `img.png`, the reference
`img.PNG?t=123#frag` becomes `img.png?t=123#frag`. -/
theorem suffix_reattached_verbatim_wit :
    replFn [] [(pstr ("img.PNG"), pstr ("img.png"))] [] [pstr ("home")] stdIgnore
        ⟨pstr ("src"), pstr ("\""), pstr ("img.PNG?t=123#frag")⟩ =
      (ReplRes.repl (pstr ("src") ++ [61] ++ qEff ⟨pstr ("src"), pstr ("\""), pstr ("img.PNG?t=123#frag")⟩ ++
        pstr ("img.png") ++ (splitUrl (pstr ("img.PNG?t=123#frag"))).2 ++
        qEff ⟨pstr ("src"), pstr ("\""), pstr ("img.PNG?t=123#frag")⟩), 1, 0) ∧
      pstr ("src") ++ [61] ++ qEff ⟨pstr ("src"), pstr ("\""), pstr ("img.PNG?t=123#frag")⟩ ++
          pstr ("img.png") ++ (splitUrl (pstr ("img.PNG?t=123#frag"))).2 ++
          qEff ⟨pstr ("src"), pstr ("\""), pstr ("img.PNG?t=123#frag")⟩ =
        pstr ("src=\"img.png?t=123#frag\"") :=
  ⟨suffix_reattached_verbatim _ _ _ _ _ _ _
    (by decide) (by decide) (by decide) (by decide), by decide⟩

/-! ### The case-normalization pass over the tree (core/assets.py, lines 350-395)

The pass folds over a snapshot of the tree taken before any rename (Python's
`sorted(project_root.rglob("*"))` materializes the listing first).  A file is
skipped when it no longer exists, when its lower-cased extension is not in the
configured set, when its name is already lower-case, or when the lower-cased
destination already exists as a different file — on a case-sensitive
filesystem `_rename_with_case_handling` then returns `None` (line 296) and the
file is left untouched.  Otherwise the file is renamed and recorded. -/

/-- The project tree: the list of existing files. -/
abbrev TreeF := List FileE

/-- Membership test (`path.is_file()` against the current tree). -/
def inTree (t : TreeF) (f : FileE) : Bool := t.any (fun g => decide (g = f))

/-- Remove one file from the tree (the rename takes its source away). -/
def removeF : TreeF → FileE → TreeF
  | [], _ => []
  | g :: r, f => if g = f then r else g :: removeF r f

/-- `PurePath.suffix`: the final `.xyz` part of the name, empty when the name
has no dot after its first character (46 is the dot). -/
def pySuffix (n : Str) : Str :=
  if (n.reverse.takeWhile (fun c => decide (c ≠ 46))).length + 2 ≤ n.length then
    46 :: (n.reverse.takeWhile (fun c => decide (c ≠ 46))).reverse
  else []

/-- State threaded through the pass: current tree, rename map, rename count. -/
structure CNState where
  tree : TreeF
  map : RenMap
  renamed : Nat

/-- Eligibility by extension: `path.suffix.lower() in extensions`. -/
def extElig (exts : List Str) (f : FileE) : Bool :=
  exts.any (fun e => decide (e = lowS (pySuffix f.name)))

/-- Processing of one snapshot entry (the loop body of lines 350-395). -/
def cnStep (exts : List Str) (st : CNState) (f : FileE) : CNState :=
  if ¬ inTree st.tree f then st
  else if ¬ extElig exts f then st
  else if lowS f.name = f.name then st
  else if inTree st.tree ⟨f.dirs, lowS f.name⟩ then st
  else
    { tree := ⟨f.dirs, lowS f.name⟩ :: removeF st.tree f,
      map := recordRename st.map f,
      renamed := st.renamed + 1 }

/-- The whole case-normalization pass on a tree and an incoming rename map. -/
def applyCN (exts : List Str) (t : TreeF) (m : RenMap) : CNState :=
  t.foldl (cnStep exts) ⟨t, m, 0⟩

theorem lowCP_idem (c : Nat) : lowCP (lowCP c) = lowCP c := by
  by_cases h : 65 ≤ c ∧ c ≤ 90
  · rw [show lowCP c = c + 32 from if_pos h,
      show lowCP (c + 32) = c + 32 from if_neg (by omega)]
  · rw [show lowCP c = c from if_neg h]
    exact if_neg h

theorem lowS_idem (s : Str) : lowS (lowS s) = lowS s := by
  rw [lowS, lowS, List.map_map]
  exact List.map_congr_left (fun c _ => lowCP_idem c)

theorem inTree_iff {t : TreeF} {f : FileE} : inTree t f = true ↔ f ∈ t := by
  simp [inTree, List.any_eq_true]

theorem mem_removeF {t : TreeF} {f g : FileE} (h : g ∈ removeF t f) : g ∈ t := by
  induction t with
  | nil => simp [removeF] at h
  | cons x r ih =>
    rw [removeF] at h
    by_cases hx : x = f
    · rw [if_pos hx] at h
      exact List.mem_cons_of_mem _ h
    · rw [if_neg hx] at h
      rcases List.mem_cons.mp h with rfl | hm
      · exact List.mem_cons_self _ _
      · exact List.mem_cons_of_mem _ (ih hm)

theorem removeF_nodup {t : TreeF} {f : FileE} (h : t.Nodup) : (removeF t f).Nodup := by
  induction t with
  | nil => simp [removeF]
  | cons x r ih =>
    rw [removeF]
    rcases List.nodup_cons.mp h with ⟨hx, hr⟩
    by_cases hxf : x = f
    · rw [if_pos hxf]; exact hr
    · rw [if_neg hxf]
      exact List.nodup_cons.mpr ⟨fun hc => hx (mem_removeF hc), ih hr⟩

theorem mem_removeF_iff {t : TreeF} {f g : FileE} (h : t.Nodup) :
    g ∈ removeF t f ↔ g ∈ t ∧ g ≠ f := by
  induction t with
  | nil => simp [removeF]
  | cons x r ih =>
    rcases List.nodup_cons.mp h with ⟨hx, hr⟩
    rw [removeF]
    by_cases hxf : x = f
    · subst hxf
      rw [if_pos rfl]
      constructor
      · intro hm
        exact ⟨List.mem_cons_of_mem _ hm, fun he => hx (he ▸ hm)⟩
      · rintro ⟨hm, hne⟩
        rcases List.mem_cons.mp hm with rfl | hm2
        · exact absurd rfl hne
        · exact hm2
    · rw [if_neg hxf]
      constructor
      · intro hm
        rcases List.mem_cons.mp hm with rfl | hm2
        · exact ⟨List.mem_cons_self _ _, fun he => hxf he⟩
        · rcases (ih hr).mp hm2 with ⟨h1, h2⟩
          exact ⟨List.mem_cons_of_mem _ h1, h2⟩
      · rintro ⟨hm, hne⟩
        rcases List.mem_cons.mp hm with rfl | hm2
        · exact List.mem_cons_self _ _
        · exact List.mem_cons_of_mem _ ((ih hr).mpr ⟨hm2, hne⟩)

/-- After the pass, every still-upper-case eligible file is blocked by an
existing lower-cased sibling. -/
def lowBlocked (exts : List Str) (t : TreeF) : Prop :=
  ∀ f ∈ t, extElig exts f = true → ¬ lowS f.name = f.name →
    (⟨f.dirs, lowS f.name⟩ : FileE) ∈ t

theorem cnFold_lowBlocked (exts : List Str) :
    ∀ (l : List FileE) (st : CNState), st.tree.Nodup →
      (∀ f ∈ st.tree, extElig exts f = true → ¬ lowS f.name = f.name →
        (⟨f.dirs, lowS f.name⟩ : FileE) ∈ st.tree ∨ f ∈ l) →
      (l.foldl (cnStep exts) st).tree.Nodup ∧
        lowBlocked exts (l.foldl (cnStep exts) st).tree := by
  intro l
  induction l with
  | nil =>
    intro st hnd hpre
    refine ⟨hnd, fun f hf he hl => ?_⟩
    rcases hpre f hf he hl with h | h
    · exact h
    · simp at h
  | cons x l ih =>
    intro st hnd hpre
    rw [List.foldl_cons]
    rw [cnStep]
    by_cases c1 : ¬ inTree st.tree x
    · rw [if_pos c1]
      refine ih st hnd (fun f hf he hl => ?_)
      rcases hpre f hf he hl with h | h
      · exact Or.inl h
      · rcases List.mem_cons.mp h with rfl | hm
        · exact absurd (inTree_iff.mpr hf) c1
        · exact Or.inr hm
    · rw [if_neg c1]
      by_cases c2 : ¬ extElig exts x
      · rw [if_pos c2]
        refine ih st hnd (fun f hf he hl => ?_)
        rcases hpre f hf he hl with h | h
        · exact Or.inl h
        · rcases List.mem_cons.mp h with rfl | hm
          · exact absurd he c2
          · exact Or.inr hm
      · rw [if_neg c2]
        by_cases c3 : lowS x.name = x.name
        · rw [if_pos c3]
          refine ih st hnd (fun f hf he hl => ?_)
          rcases hpre f hf he hl with h | h
          · exact Or.inl h
          · rcases List.mem_cons.mp h with rfl | hm
            · exact absurd c3 hl
            · exact Or.inr hm
        · rw [if_neg c3]
          by_cases c4 : inTree st.tree ⟨x.dirs, lowS x.name⟩
          · rw [if_pos c4]
            refine ih st hnd (fun f hf he hl => ?_)
            rcases hpre f hf he hl with h | h
            · exact Or.inl h
            · rcases List.mem_cons.mp h with rfl | hm
              · exact Or.inl (inTree_iff.mp c4)
              · exact Or.inr hm
          · rw [if_neg c4]
            have hxmem : x ∈ st.tree := inTree_iff.mp (not_not.mp c1)
            have htgt_not : (⟨x.dirs, lowS x.name⟩ : FileE) ∉ st.tree := fun hc =>
              c4 (inTree_iff.mpr hc)
            have hnd2 : (FileE.mk x.dirs (lowS x.name) :: removeF st.tree x).Nodup :=
              List.nodup_cons.mpr
                ⟨fun hc => htgt_not (mem_removeF hc), removeF_nodup hnd⟩
            refine ih _ hnd2 (fun f hf he hl => ?_)
            rcases List.mem_cons.mp hf with rfl | hm
            · exact absurd (lowS_idem x.name) hl
            · rcases (mem_removeF_iff hnd).mp hm with ⟨hmem, hne⟩
              rcases hpre f hmem he hl with h | h
              · refine Or.inl (List.mem_cons_of_mem _ ?_)
                refine (mem_removeF_iff hnd).mpr ⟨h, fun he2 => ?_⟩
                have : x.name = lowS f.name := by rw [← he2]
                apply c3
                rw [this, lowS_idem]
              · rcases List.mem_cons.mp h with rfl | hm2
                · exact absurd rfl hne
                · exact Or.inr hm2

theorem cnFold_noop (exts : List Str) :
    ∀ (l : List FileE) (st : CNState), (∀ f ∈ l, f ∈ st.tree) →
      lowBlocked exts st.tree → l.foldl (cnStep exts) st = st := by
  intro l
  induction l with
  | nil => intro st _ _; rfl
  | cons x l ih =>
    intro st hsub hblk
    have hx : x ∈ st.tree := hsub x (List.mem_cons_self _ _)
    have hstep : cnStep exts st x = st := by
      rw [cnStep]
      rw [if_neg (by simp [inTree_iff.mpr hx])]
      by_cases c2 : ¬ extElig exts x
      · rw [if_pos c2]
      · rw [if_neg c2]
        by_cases c3 : lowS x.name = x.name
        · rw [if_pos c3]
        · rw [if_neg c3]
          have : (⟨x.dirs, lowS x.name⟩ : FileE) ∈ st.tree :=
            hblk x hx (by simpa using c2) c3
          rw [if_pos (inTree_iff.mpr this)]
    rw [List.foldl_cons, hstep]
    exact ih st (fun f hf => hsub f (List.mem_cons_of_mem _ hf)) hblk

/-- C2 (amended): running the case-normalization pass a second time, on the
tree and rename map produced by the first run, performs zero renames, adds no
rename-map entries and leaves the tree unchanged. -/
theorem cn_second_run_noop (exts : List Str) (t0 : TreeF) (m0 : RenMap) (h : t0.Nodup) :
    applyCN exts (applyCN exts t0 m0).tree (applyCN exts t0 m0).map =
      ⟨(applyCN exts t0 m0).tree, (applyCN exts t0 m0).map, 0⟩ := by
  have h1 := cnFold_lowBlocked exts t0 ⟨t0, m0, 0⟩ h (fun f hf _ _ => Or.inr hf)
  rw [show applyCN exts (applyCN exts t0 m0).tree (applyCN exts t0 m0).map =
      (applyCN exts t0 m0).tree.foldl (cnStep exts)
        ⟨(applyCN exts t0 m0).tree, (applyCN exts t0 m0).map, 0⟩ from rfl]
  exact cnFold_noop exts (applyCN exts t0 m0).tree
    ⟨(applyCN exts t0 m0).tree, (applyCN exts t0 m0).map, 0⟩ (fun f hf => hf) h1.2

/-- C2 witness: a tree with an upper-case file, a collision pair and an
ineligible file; the second run is the identity. -/
theorem cn_second_run_noop_wit :
    applyCN [pstr (".html")]
        (applyCN [pstr (".html")]
          [⟨[], pstr ("Job.HTML")⟩, ⟨[], pstr ("AB.html")⟩, ⟨[], pstr ("ab.html")⟩,
           ⟨[], pstr ("Logo.PNG")⟩] []).tree
        (applyCN [pstr (".html")]
          [⟨[], pstr ("Job.HTML")⟩, ⟨[], pstr ("AB.html")⟩, ⟨[], pstr ("ab.html")⟩,
           ⟨[], pstr ("Logo.PNG")⟩] []).map =
      ⟨(applyCN [pstr (".html")]
          [⟨[], pstr ("Job.HTML")⟩, ⟨[], pstr ("AB.html")⟩, ⟨[], pstr ("ab.html")⟩,
           ⟨[], pstr ("Logo.PNG")⟩] []).tree,
       (applyCN [pstr (".html")]
          [⟨[], pstr ("Job.HTML")⟩, ⟨[], pstr ("AB.html")⟩, ⟨[], pstr ("ab.html")⟩,
           ⟨[], pstr ("Logo.PNG")⟩] []).map, 0⟩ :=
  cn_second_run_noop _ _ _ (by decide)

/-! ### `_apply_rename_map` and the per-file tail of `update_all_refs_in_project`
(core/refs.py, lines 53-62 and 263-297) -/

/-- Stable insertion into a list sorted by descending key length. -/
def insByLen (x : Str × Str) : List (Str × Str) → List (Str × Str)
  | [] => [x]
  | y :: r => if x.1.length < y.1.length then y :: insByLen x r else x :: y :: r

/-- Python `sorted(m.items(), key=len of key, reverse=True)` (a stable sort). -/
def sortKeysD : List (Str × Str) → List (Str × Str)
  | [] => []
  | x :: r => insByLen x (sortKeysD r)

/-- Translation of `_apply_rename_map`: longest keys first, each key replaced
everywhere in the text as a literal pattern, empty keys skipped; returns the
new text and the total replacement count. -/
def applyRenameMap (text : Str) (m : RenMap) : Str × Nat :=
  (sortKeysD m).foldl
    (fun acc kv =>
      if kv.1 = [] then acc
      else ((subnLit kv.1 kv.2 acc.1).1, acc.2 + (subnLit kv.1 kv.2 acc.1).2))
    (text, 0)

/-! ### The script comment-out phase (core/refs.py, lines 151-165)

After the attribute pass, `_update_links_in_html` wraps every match of
`(<script[^>]+NAME[^>]*></script>)` in an HTML comment unless the matched
text itself contains both comment markers.  The matched group is the script
tag alone, which can never contain `<!--` (the character class excludes `>`
inside the tag), so the guard never fires and an already-commented tag is
wrapped again on every later run. -/

/-- Python `p in s` (substring containment). -/
def hasSub (p : Str) : Str → Bool
  | [] => decide (p = [])
  | c :: r => startsW p (c :: r) || hasSub p r

/-- `_script_replacer` (lines 157-163): keep a match whose own text carries
both comment markers, else wrap it in a comment and count one fix. -/
def scriptReplacerOut (tag : Str) : Str × Nat :=
  if hasSub (pstr ("<!--")) tag ∧ hasSub (pstr ("-->")) tag then (tag, 0)
  else (pstr ("<!-- ") ++ tag ++ pstr (" -->"), 1)

/-- A text split into plain pieces and matches of the script pattern. -/
inductive STok
  | plain (s : Str)
  | tag (m : Str)

/-- The whole text. -/
def renderSToks : List STok → Str
  | [] => []
  | STok.plain s :: r => s ++ renderSToks r
  | STok.tag m :: r => m ++ renderSToks r

/-- `script_pattern.sub(_script_replacer, text)` with the fixed counter. -/
def scriptPass : List STok → Str × Nat
  | [] => ([], 0)
  | STok.plain s :: r => (s ++ (scriptPass r).1, (scriptPass r).2)
  | STok.tag m :: r =>
    ((scriptReplacerOut m).1 ++ (scriptPass r).1,
     (scriptReplacerOut m).2 + (scriptPass r).2)

/-- C2 counterexample: the script comment-out phase re-wraps on the second
run.  The tag `<script src="x.js"></script>` is a match of the script pattern
for the configured name `x.js` (shape `<script`, a nonempty run without `>`,
the name, a run without `>`, then `></script>`).  The first run wraps it and
counts a fix; on the second run the same tag, inside the comment written by
the first run, is matched again, its own text carries no comment marker, so
it is wrapped again and counted again — the text changes and
`update_all_refs_in_project` writes the file back on the second run. -/
theorem script_rewrap_second_run_writes_cex :
    (pstr ("<script src=\"x.js\"></script>") =
        pstr ("<script") ++ pstr (" src=\"") ++ pstr ("x.js") ++ [34] ++
          pstr ("></script>") ∧
      ¬ pstr (" src=\"") = [] ∧ hasC 62 (pstr (" src=\"")) = false ∧
      hasC 62 [34] = false) ∧
    scriptPass [STok.tag (pstr ("<script src=\"x.js\"></script>"))] =
      (pstr ("<!-- <script src=\"x.js\"></script> -->"), 1) ∧
    renderSToks [STok.plain (pstr ("<!-- ")),
        STok.tag (pstr ("<script src=\"x.js\"></script>")),
        STok.plain (pstr (" -->"))] =
      pstr ("<!-- <script src=\"x.js\"></script> -->") ∧
    scriptPass [STok.plain (pstr ("<!-- ")),
        STok.tag (pstr ("<script src=\"x.js\"></script>")),
        STok.plain (pstr (" -->"))] =
      (pstr ("<!-- <!-- <script src=\"x.js\"></script> --> -->"), 1) ∧
    ¬ pstr ("<!-- <!-- <script src=\"x.js\"></script> --> -->") =
      pstr ("<!-- <script src=\"x.js\"></script> -->") := by
  refine ⟨⟨?_, ?_, ?_, ?_⟩, ?_, ?_, ?_, ?_⟩ <;> decide

/-! ### Claim C4 -/

/-- C4: route precedence fails on the stored code.  The reference text
`href="/careers"` contains no backslash, so the stored attribute pattern
never matches it and the route branch of `repl` never runs for it, whatever
route table is loaded; the whole-text rename-map substitution that
`update_all_refs_in_project` applies next (line 288) then rewrites the
reference with the rename-map value of the slash-stripped alias — the final
text carries `/jobs.html`, and the route target `page123.html` appears
nowhere in it. -/
theorem rename_map_wins_over_route :
    hasC 92 (pstr ("href=\"/careers\"")) = false ∧
    (∀ (f : Str → Str × Nat × Nat) (ts : List LTok),
      (∀ m, LTok.mat m ∈ ts → litAttrMatch m) →
      renderLToks ts = pstr ("href=\"/careers\"") →
      litPass f ts = (pstr ("href=\"/careers\""), 0, 0)) ∧
    (applyRenameMap (pstr ("href=\"/careers\""))
        [(pstr ("careers"), pstr ("jobs.html"))]).1 = pstr ("href=\"/jobs.html\"") ∧
    hasSub (pstr ("page123.html"))
      (applyRenameMap (pstr ("href=\"/careers\""))
        [(pstr ("careers"), pstr ("jobs.html"))]).1 = false := by
  refine ⟨by decide, ?_, by decide, by decide⟩
  intro f ts hm hr
  rw [← hr]
  refine litPass_no_backslash f ts hm ?_
  rw [hr]
  decide

/-! ### `fix_link` and `scan_and_fix_links` (core/checker.py, lines 34-131)

The regex link extraction is modelled by the list of extracted link values;
`fix_link` is translated verbatim, with the `htaccess_rules` regex search
abstracted as a matcher predicate over (pattern, link). -/

/-- `IGNORE_PREFIXES` of checker.py. -/
def checkerIgnore : List Str :=
  [pstr ("#"), pstr ("mailto:"), pstr ("tel:"), pstr ("javascript:"),
   pstr ("data:"), pstr ("about:"), pstr ("//")]

/-- `(base / link)` with `pathlib` semantics (an absolute link replaces the
base), then lexical `resolve()`. -/
def joinPy (baseDir : PathA) (l : Str) : PathA :=
  if startsW (pstr ("/")) l then normSegs (splitOnC 47 l)
  else normSegs (baseDir ++ splitOnC 47 l)

/-- `PurePath.stem`: the name without its suffix. -/
def pyStem (n : Str) : Str := n.take (n.length - (pySuffix n).length)

/-- `target.with_suffix(".html")`. -/
def withSuffixHtml (p : PathA) : PathA :=
  match p.getLast? with
  | none => []
  | some n => p.dropLast ++ [pyStem n ++ pstr (".html")]

/-- Python `link.rsplit(".", 1)[0]`. -/
def rsplitKeep (l : Str) : Str :=
  if hasC 46 l then ((l.reverse.dropWhile (fun c => decide (c ≠ 46))).drop 1).reverse
  else l

/-- `str(Path(link) / "index.html").replace("\\", "/")`: `pathlib` drops empty
and `.` segments when parsing. -/
def renderJoined (l : Str) : Str :=
  (if startsW (pstr ("/")) l then [47] else []) ++
    renderP 47 ((splitOnC 47 l).filter (fun s => decide (¬ s = [] ∧ ¬ s = [46])) ++
      [pstr ("index.html")])

/-- Translation of `fix_link` (lines 34-73): ignore service links; strip the
link; keep it when its target exists; else try an htaccess rule, then the
`.html`-extension candidate, then the `index.html` candidate; else return the
link unchanged (broken). -/
def fixLink (matcher : Str → Str → Bool) (rules : List (Str × Str)) (fsys : List PathA)
    (rootP : PathA) (fileDir : PathA) (link : Str) : Str :=
  if checkerIgnore.any (fun p => startsW p link) then link
  else
    fixLinkStripped matcher rules fsys rootP fileDir
      (stripBoth (fun c => decide (c = 39))
        (stripBoth (fun c => decide (c = 34)) (stripBoth wsCP link)))
where
  fixLinkStripped (matcher : Str → Str → Bool) (rules : List (Str × Str))
      (fsys : List PathA) (rootP : PathA) (fileDir : PathA) (l : Str) : Str :=
    if pathExists fsys (joinPy fileDir l) then l
    else
      match rules.find? (fun pr => matcher pr.1 l) with
      | some pr => pr.2
      | none =>
        if pathExists fsys (withSuffixHtml (joinPy fileDir l)) then
          rsplitKeep l ++ pstr (".html")
        else if pathExists fsys (normSegs (rootP ++
            splitOnC 47 (stripBoth (fun c => decide (c = 47)) l) ++ [pstr ("index.html")])) then
          renderJoined l
        else l

/-- The loop body of `scan_and_fix_links` (lines 106-117) for one extracted
link: a fixed link is substituted into the text (Python `str.replace`, every
occurrence) and counted; otherwise a missing target that is not an anchor is
counted as broken. -/
def checkerStep (matcher : Str → Str → Bool) (rules : List (Str × Str)) (fsys : List PathA)
    (rootP : PathA) (fileDir : PathA) (st : Str × Nat × Nat) (lnk : Str) : Str × Nat × Nat :=
  if ¬ fixLink matcher rules fsys rootP fileDir lnk = lnk then
    ((subnLit lnk (fixLink matcher rules fsys rootP fileDir lnk) st.1).1, st.2.1 + 1, st.2.2)
  else if ¬ pathExists fsys (joinPy fileDir lnk) ∧ ¬ startsW (pstr ("#")) lnk then
    (st.1, st.2.1, st.2.2 + 1)
  else st

/-- `scan_and_fix_links` on one file: text plus (fixed, broken) counters; the
file is written back exactly when the text changed. -/
def processFileChecker (matcher : Str → Str → Bool) (rules : List (Str × Str))
    (fsys : List PathA) (rootP : PathA) (fileDir : PathA) (text : Str)
    (links : List Str) : Str × Nat × Nat :=
  links.foldl (checkerStep matcher rules fsys rootP fileDir) (text, 0, 0)

theorem checkerFold_fixed_mono (matcher : Str → Str → Bool) (rules : List (Str × Str))
    (fsys : List PathA) (rootP fileDir : PathA) :
    ∀ (l : List Str) (st : Str × Nat × Nat),
      st.2.1 ≤ (l.foldl (checkerStep matcher rules fsys rootP fileDir) st).2.1 := by
  intro l
  induction l with
  | nil => intro st; exact Nat.le_refl _
  | cons x l ih =>
    intro st
    rw [List.foldl_cons]
    refine Nat.le_trans ?_ (ih (checkerStep matcher rules fsys rootP fileDir st x))
    rw [checkerStep]
    by_cases c1 : ¬ fixLink matcher rules fsys rootP fileDir x = x
    · rw [if_pos c1]; exact Nat.le_succ _
    · rw [if_neg c1]
      by_cases c2 : ¬ pathExists fsys (joinPy fileDir x) ∧ ¬ startsW (pstr ("#")) x
      · rw [if_pos c2]
      · rw [if_neg c2]

theorem checkerFold_no_fix_no_change (matcher : Str → Str → Bool) (rules : List (Str × Str))
    (fsys : List PathA) (rootP fileDir : PathA) :
    ∀ (l : List Str) (st : Str × Nat × Nat),
      (l.foldl (checkerStep matcher rules fsys rootP fileDir) st).2.1 = st.2.1 →
      (l.foldl (checkerStep matcher rules fsys rootP fileDir) st).1 = st.1 := by
  intro l
  induction l with
  | nil => intro st _; rfl
  | cons x l ih =>
    intro st h
    rw [List.foldl_cons] at h ⊢
    by_cases c1 : ¬ fixLink matcher rules fsys rootP fileDir x = x
    · exfalso
      have hm := checkerFold_fixed_mono matcher rules fsys rootP fileDir l
        (checkerStep matcher rules fsys rootP fileDir st x)
      have hv : checkerStep matcher rules fsys rootP fileDir st x =
          ((subnLit x (fixLink matcher rules fsys rootP fileDir x) st.1).1,
            st.2.1 + 1, st.2.2) := by
        rw [checkerStep, if_pos c1]
      rw [hv] at hm h
      simp only at hm h
      omega
    · by_cases c2 : ¬ pathExists fsys (joinPy fileDir x) ∧ ¬ startsW (pstr ("#")) x
      · have hv : checkerStep matcher rules fsys rootP fileDir st x =
            (st.1, st.2.1, st.2.2 + 1) := by
          rw [checkerStep, if_neg c1, if_pos c2]
        rw [hv] at h ⊢
        exact ih (st.1, st.2.1, st.2.2 + 1) h
      · have hv : checkerStep matcher rules fsys rootP fileDir st x = st := by
          rw [checkerStep, if_neg c1, if_neg c2]
        rw [hv] at h ⊢
        exact ih st h

/-- C7 (amended): `scan_and_fix_links` is not read-only in general, but it
modifies a file's text only by substituting fixed links: when it fixes no link
in a file, the file's text is left unchanged (only counted). -/
theorem checker_zero_fixed_preserves_text (matcher : Str → Str → Bool)
    (rules : List (Str × Str)) (fsys : List PathA) (rootP fileDir : PathA)
    (text : Str) (links : List Str)
    (h : (processFileChecker matcher rules fsys rootP fileDir text links).2.1 = 0) :
    (processFileChecker matcher rules fsys rootP fileDir text links).1 = text :=
  checkerFold_no_fix_no_change matcher rules fsys rootP fileDir links (text, 0, 0) h

/-- C7 witness: a file whose only link exists on disk is left byte-identical. -/
theorem checker_zero_fixed_preserves_text_wit :
    (processFileChecker (fun _ _ => false) [] [[pstr ("r")], [pstr ("r"), pstr ("about.html")]]
        [pstr ("r")] [pstr ("r")] (pstr ("href=\"about.html\"")) [pstr ("about.html")]).1 =
      pstr ("href=\"about.html\"") :=
  checker_zero_fixed_preserves_text (fun _ _ => false) []
    [[pstr ("r")], [pstr ("r"), pstr ("about.html")]] [pstr ("r")] [pstr ("r")]
    (pstr ("href=\"about.html\"")) [pstr ("about.html")] (by decide)

/-- C7 counterexample: `scan_and_fix_links` is not read-only — when
`about.htm` is missing but `about.html` exists, `fix_link` rewrites the
extension, the text changes and the file is written back. -/
theorem checker_writes_file_cex :
    (processFileChecker (fun _ _ => false) []
        [[pstr ("r")], [pstr ("r"), pstr ("page.html")], [pstr ("r"), pstr ("about.html")]]
        [pstr ("r")] [pstr ("r")] (pstr ("href=\"about.htm\"")) [pstr ("about.htm")]) =
      (pstr ("href=\"about.html\""), 1, 0) ∧
    ¬ pstr ("href=\"about.html\"") = pstr ("href=\"about.htm\"") := by
  refine ⟨?_, ?_⟩ <;> decide

/-! ### `_rename_with_case_handling` (core/assets.py, lines 279-311) -/

/-- One directory of the filesystem: file names with content identifiers.
`ci` true models a case-insensitive filesystem, on which two names with the
same lower-casing address the same file (`samefile` is true for them). -/
structure FsM where
  files : List (Str × Nat)
  ci : Bool
deriving DecidableEq

/-- Does a stored name address the probed name on this filesystem? -/
def nameHit (fs : FsM) (stored probe : Str) : Bool :=
  if fs.ci then decide (lowS stored = lowS probe) else decide (stored = probe)

/-- `path.exists()` within the directory. -/
def fsExists (fs : FsM) (n : Str) : Bool := fs.files.any (fun e => nameHit fs e.1 n)

/-- `destination.samefile(path)` for two existing names. -/
def fsSame (fs : FsM) (a b : Str) : Bool :=
  if fs.ci then decide (lowS a = lowS b) else decide (a = b)

/-- A successful `rename`: the addressed entry gets the new name. -/
def fsRename (fs : FsM) (src dst : Str) : FsM :=
  ⟨fs.files.map (fun e => if nameHit fs e.1 src then (dst, e.2) else e), fs.ci⟩

/-- Translation of `_rename_with_case_handling`.  Every `rename` call may
raise `OSError`; `sched` lists the outcomes of the successive calls (`true` =
the call succeeds) and an exhausted schedule counts as a raise.  The case-only
branch (destination exists and is the same file) does the two-step rename
through the temporary name with no restore on failure; the fallback branch
restores the temporary on failure, that restore itself suppressed. -/
def renameCaseHandling (fs : FsM) (path dest tmp : Str) (sched : List Bool) :
    Option Str × FsM :=
  if path = dest then (some dest, fs)
  else if fsExists fs dest then
    if fsSame fs dest path then
      match sched with
      | true :: true :: _ => (some dest, fsRename (fsRename fs path tmp) tmp dest)
      | true :: _ => (none, fsRename fs path tmp)
      | _ => (none, fs)
    else (none, fs)
  else
    match sched with
    | true :: _ => (some dest, fsRename fs path dest)
    | _ :: true :: true :: _ => (some dest, fsRename (fsRename fs path tmp) tmp dest)
    | _ :: true :: _ :: true :: _ => (none, fsRename (fsRename fs path tmp) tmp path)
    | _ :: true :: _ => (none, fsRename fs path tmp)
    | _ => (none, fs)

/-- C8: the case-only two-step rename loses the original name on failure —
with a case-insensitive filesystem holding only `A.html`, the rename to
`a.html` whose second step raises returns `None` and leaves the file only
under the temporary name: nothing is reachable under `A.html` any more, so
the function does not always leave a failed file untouched. -/
theorem rename_case_two_step_loses_original :
    renameCaseHandling ⟨[(pstr ("A.html"), 0)], true⟩ (pstr ("A.html")) (pstr ("a.html"))
        (pstr ("__detilda_tmp__1.html")) [true, false] =
      (none, ⟨[(pstr ("__detilda_tmp__1.html"), 0)], true⟩) ∧
    fsExists (renameCaseHandling ⟨[(pstr ("A.html"), 0)], true⟩ (pstr ("A.html"))
        (pstr ("a.html")) (pstr ("__detilda_tmp__1.html")) [true, false]).2
      (pstr ("A.html")) = false ∧
    fsExists ⟨[(pstr ("A.html"), 0)], true⟩ (pstr ("A.html")) = true := by
  refine ⟨?_, ?_, ?_⟩ <;> decide
